import Mathlib

/-!
Verification of the web-class-obfuscator core (src/obfuscator.py) via a
shallow embedding.  Pure Python functions become Lean functions; machine
arithmetic is `Nat` with explicit `% 2^32` where the MD5 rounds overflow;
fallible code returns `Except`.  Characters are modelled at the ASCII
fragment (class identifiers and markup in scope are ASCII); `Char.isAlpha`,
`Char.isUpper`, `Char.isLower` play the role of the corresponding `str`
predicates on that fragment.
-/

/-! ### MD5 (embedding of `hashlib.md5(...).hexdigest()` used by the "hash" method) -/

def M32 : Nat := 4294967296

def rotl32 (x s : Nat) : Nat :=
  ((x <<< s) % M32) ||| (x >>> (32 - s))

def not32 (x : Nat) : Nat := 4294967295 ^^^ x

def md5K : List Nat :=
  [0xd76aa478, 0xe8c7b756, 0x242070db, 0xc1bdceee,
   0xf57c0faf, 0x4787c62a, 0xa8304613, 0xfd469501,
   0x698098d8, 0x8b44f7af, 0xffff5bb1, 0x895cd7be,
   0x6b901122, 0xfd987193, 0xa679438e, 0x49b40821,
   0xf61e2562, 0xc040b340, 0x265e5a51, 0xe9b6c7aa,
   0xd62f105d, 0x02441453, 0xd8a1e681, 0xe7d3fbc8,
   0x21e1cde6, 0xc33707d6, 0xf4d50d87, 0x455a14ed,
   0xa9e3e905, 0xfcefa3f8, 0x676f02d9, 0x8d2a4c8a,
   0xfffa3942, 0x8771f681, 0x6d9d6122, 0xfde5380c,
   0xa4beea44, 0x4bdecfa9, 0xf6bb4b60, 0xbebfbc70,
   0x289b7ec6, 0xeaa127fa, 0xd4ef3085, 0x04881d05,
   0xd9d4d039, 0xe6db99e5, 0x1fa27cf8, 0xc4ac5665,
   0xf4292244, 0x432aff97, 0xab9423a7, 0xfc93a039,
   0x655b59c3, 0x8f0ccc92, 0xffeff47d, 0x85845dd1,
   0x6fa87e4f, 0xfe2ce6e0, 0xa3014314, 0x4e0811a1,
   0xf7537e82, 0xbd3af235, 0x2ad7d2bb, 0xeb86d391]

def md5S : List Nat :=
  [7,12,17,22,7,12,17,22,7,12,17,22,7,12,17,22,
   5,9,14,20,5,9,14,20,5,9,14,20,5,9,14,20,
   4,11,16,23,4,11,16,23,4,11,16,23,4,11,16,23,
   6,10,15,21,6,10,15,21,6,10,15,21,6,10,15,21]

structure MD5State where
  a : Nat
  b : Nat
  c : Nat
  d : Nat

def md5Init : MD5State :=
  ⟨0x67452301, 0xefcdab89, 0x98badcfe, 0x10325476⟩

def md5F (i b c d : Nat) : Nat :=
  if i < 16 then (b &&& c) ||| (not32 b &&& d)
  else if i < 32 then (d &&& b) ||| (not32 d &&& c)
  else if i < 48 then b ^^^ c ^^^ d
  else c ^^^ (b ||| not32 d)

def md5G (i : Nat) : Nat :=
  if i < 16 then i
  else if i < 32 then (5 * i + 1) % 16
  else if i < 48 then (3 * i + 5) % 16
  else (7 * i) % 16

def md5Round (w : List Nat) (st : MD5State) (i : Nat) : MD5State :=
  let f := (md5F i st.b st.c st.d + st.a + md5K.getD i 0 + w.getD (md5G i) 0) % M32
  { a := st.d, b := (st.b + rotl32 f (md5S.getD i 0)) % M32, c := st.b, d := st.c }

def word4 (b0 b1 b2 b3 : Nat) : Nat := b0 + 256 * b1 + 65536 * b2 + 16777216 * b3

def chunkWords : List Nat → List Nat
  | b0 :: b1 :: b2 :: b3 :: rest => word4 b0 b1 b2 b3 :: chunkWords rest
  | _ => []

def md5Chunk (st : MD5State) (chunk : List Nat) : MD5State :=
  let w := chunkWords chunk
  let r := (List.range 64).foldl (md5Round w) st
  ⟨(st.a + r.a) % M32, (st.b + r.b) % M32, (st.c + r.c) % M32, (st.d + r.d) % M32⟩

def md5ChunksF : Nat → MD5State → List Nat → MD5State
  | _, st, [] => st
  | 0, st, _ => st
  | fuel+1, st, bs => md5ChunksF fuel (md5Chunk st (bs.take 64)) (bs.drop 64)

def le4 (x : Nat) : List Nat :=
  [x % 256, x / 256 % 256, x / 65536 % 256, x / 16777216 % 256]

def le8 (x : Nat) : List Nat :=
  [x % 256, x / 256 % 256, x / 65536 % 256, x / 16777216 % 256,
   x / 4294967296 % 256, x / 1099511627776 % 256,
   x / 281474976710656 % 256, x / 72057594037927936 % 256]

def md5Pad (msg : List Nat) : List Nat :=
  msg ++ [128] ++ List.replicate ((120 - (msg.length + 1) % 64) % 64) 0
      ++ le8 (msg.length * 8)

def md5Bytes (msg : List Nat) : List Nat :=
  let padded := md5Pad msg
  let st := md5ChunksF padded.length md5Init padded
  le4 st.a ++ le4 st.b ++ le4 st.c ++ le4 st.d

def hexChar (d : Nat) : Char :=
  if d < 10 then Char.ofNat (48 + d) else Char.ofNat (87 + d)

def byteHex (b : Nat) : List Char := [hexChar (b / 16), hexChar (b % 16)]

def md5HexChars (msg : List Nat) : List Char := (md5Bytes msg).flatMap byteHex

/-! ### UTF-8 encoding (embedding of `str.encode('utf-8')`) -/

def utf8EncodeCharM (c : Char) : List Nat :=
  let n := c.toNat
  if n < 128 then [n]
  else if n < 2048 then [192 + n / 64, 128 + n % 64]
  else if n < 65536 then [224 + n / 4096, 128 + n / 64 % 64, 128 + n % 64]
  else [240 + n / 262144, 128 + n / 4096 % 64, 128 + n / 64 % 64, 128 + n % 64]

def utf8Bytes (s : String) : List Nat := s.data.flatMap utf8EncodeCharM

/-! ### `obfuscate_identifier` (src/obfuscator.py, lines 30-66) -/

/-- One character of the "shift" Caesar rotation: alphabetic characters are
rotated by `n` within their own case range, everything else is returned
unchanged (lines 48-53 of the source). -/
def shiftChar (n : Nat) (c : Char) : Char :=
  if c.isAlpha then
    let base := if c.isUpper then 65 else 97
    Char.ofNat (base + (c.toNat - base + n) % 26)
  else c

/-- Embedding of `obfuscate_identifier`.  The `ValueError` raised on an
unknown method becomes `Except.error` carrying `str(e)`. -/
def obfuscate_identifier (identifier : String) (method : String) : Except String String :=
  if identifier = "" then .ok identifier
  else if method = "shift" then
    .ok (String.mk (identifier.data.map (shiftChar identifier.length)))
  else if method = "hash" then
    .ok ("c" ++ String.mk ((md5HexChars (utf8Bytes identifier)).take 8))
  else if method = "hex" then
    .ok ("c" ++ String.mk ((utf8Bytes identifier).flatMap byteHex))
  else .error ("Unknown obfuscation method: \x27" ++ method ++ "\x27")

deriving instance DecidableEq for Except

/-! ### Decimal printing (embedding of the `f"{original}_{counter}"` formatting) -/

def digitCharD (d : Nat) : Char := Char.ofNat (48 + d)

def decDigitsAux : Nat → Nat → List Char
  | 0, _ => []
  | fuel+1, n => if n = 0 then [] else decDigitsAux fuel (n / 10) ++ [digitCharD (n % 10)]

/-- Decimal representation of a natural number, as Python string formatting
produces it. -/
def natRepr (n : Nat) : String :=
  if n = 0 then "0" else String.mk (decDigitsAux (n + 1) n)

/-! ### `build_class_mapping` (src/obfuscator.py, lines 130-169) -/

structure ClassMapping where
  original : String
  obfuscated : String
deriving DecidableEq

/-- The candidate tried at loop iteration `k` of the collision-handling
`while` loop: iteration 0 tries the raw transform result, iteration `k ≥ 1`
tries `f"{original_obfuscated}_{k}"`. -/
def candidate (base : String) (k : Nat) : String :=
  if k = 0 then base else base ++ "_" ++ natRepr k

/-- The collision-handling `while` loop (lines 159-163), with enough fuel to
reach a candidate that is not among the used names. -/
def pickFreshAux (base : String) (used : List String) : Nat → Nat → String
  | 0, k => candidate base k
  | fuel+1, k =>
    if candidate base k ∈ used then pickFreshAux base used fuel (k+1)
    else candidate base k

def pickFresh (base : String) (used : List String) : String :=
  pickFreshAux base used (used.length + 1) 0

/-- Lexicographic comparison of character lists by code point: the ordering
Python string comparison uses. -/
def listLtChars : List Char → List Char → Bool
  | [], [] => false
  | [], _ :: _ => true
  | _ :: _, [] => false
  | a :: as, b :: bs =>
    if a.toNat < b.toNat then true
    else if b.toNat < a.toNat then false
    else listLtChars as bs

def strLt (a b : String) : Bool := listLtChars a.data b.data

/-- Insertion step of lexicographic sorted-set construction: `sorted(set(l))`,
the scan order of `build_class_mapping` (line 152). -/
def insertSorted (x : String) : List String → List String
  | [] => [x]
  | y :: ys =>
    if strLt x y then x :: y :: ys
    else if x = y then y :: ys
    else y :: insertSorted x ys

def sortedDedup (l : List String) : List String := l.foldr insertSorted []

/-- The scan loop of `build_class_mapping` (lines 152-166): skip empty and
excluded names, transform, resolve collisions against all previously used
obfuscated names, accumulate.  A `ValueError` from the transform propagates. -/
def buildAux (method : String) (exclude : List String) :
    List String → List String → Except String (List ClassMapping)
  | [], _ => .ok []
  | c :: cs, used =>
    if c = "" ∨ c ∈ exclude then buildAux method exclude cs used
    else
      match obfuscate_identifier c method with
      | .error e => .error e
      | .ok raw =>
        let ob := pickFresh raw used
        match buildAux method exclude cs (ob :: used) with
        | .error e => .error e
        | .ok rest => .ok (⟨c, ob⟩ :: rest)

/-- Stable insertion by descending length of `original`; an element is
placed after all already-present elements of length `> ` its own or `= ` its
own, which is exactly the stable `sorted(..., key=len, reverse=True)` of
line 169. -/
def insertByLen (x : ClassMapping) : List ClassMapping → List ClassMapping
  | [] => [x]
  | y :: ys =>
    if x.original.length < y.original.length then y :: insertByLen x ys
    else x :: y :: ys

def sortByLenDesc (l : List ClassMapping) : List ClassMapping := l.foldr insertByLen []

/-- Embedding of `build_class_mapping`.  The input list stands for the Python
set `all_classes` (order and multiplicity are erased by `sortedDedup`, which
models `sorted(all_classes)`). -/
def build_class_mapping (all_classes : List String) (method : String)
    (exclude : List String) : Except String (List ClassMapping) :=
  (buildAux method exclude (sortedDedup all_classes) []).map sortByLenDesc


/-! ### Basic character lemmas -/

theorem toNat_ofNat_small {n : Nat} (h : n < 55296) : (Char.ofNat n).toNat = n := by
  have hv : n.isValidChar := Or.inl h
  rw [Char.ofNat, dif_pos hv]
  simp [Char.ofNatAux, Char.toNat, UInt32.toNat, BitVec.toNat_ofNatLt]

theorem isUpper_iff {c : Char} : c.isUpper = true ↔ 65 ≤ c.toNat ∧ c.toNat ≤ 90 := by
  simp [Char.isUpper, Char.toNat, UInt32.le_def, BitVec.le_def, UInt32.toNat]

theorem isLower_iff {c : Char} : c.isLower = true ↔ 97 ≤ c.toNat ∧ c.toNat ≤ 122 := by
  simp [Char.isLower, Char.toNat, UInt32.le_def, BitVec.le_def, UInt32.toNat]

theorem char_eq_iff_toNat {a b : Char} : a = b ↔ a.toNat = b.toNat := by
  constructor
  · rintro rfl; rfl
  · intro h
    apply Char.ext
    exact UInt32.toNat.inj h

theorem shiftChar_toNat_of_upper {n : Nat} {c : Char} (h : c.isUpper = true) :
    (shiftChar n c).toNat = 65 + (c.toNat - 65 + n) % 26 := by
  have ha : c.isAlpha = true := by simp [Char.isAlpha, h]
  have hlt : (c.toNat - 65 + n) % 26 < 26 := Nat.mod_lt _ (by omega)
  simp only [shiftChar, ha, h, if_true]
  exact toNat_ofNat_small (by omega)

theorem shiftChar_toNat_of_lower {n : Nat} {c : Char} (h : c.isLower = true) :
    (shiftChar n c).toNat = 97 + (c.toNat - 97 + n) % 26 := by
  have ha : c.isAlpha = true := by simp [Char.isAlpha, h]
  have hu : c.isUpper = false := by
    rcases isLower_iff.mp h with ⟨h1, h2⟩
    by_contra hu
    rcases isUpper_iff.mp (by simpa using hu) with ⟨h3, h4⟩
    omega
  have hlt : (c.toNat - 97 + n) % 26 < 26 := Nat.mod_lt _ (by omega)
  simp only [shiftChar, ha, hu, if_true, if_false, Bool.false_eq_true]
  exact toNat_ofNat_small (by omega)

theorem shiftChar_of_not_alpha {n : Nat} {c : Char} (h : c.isAlpha = false) :
    shiftChar n c = c := by
  simp [shiftChar, h]

/-! ### Injectivity of decimal printing and freshness of collision handling -/

def parseDec (l : List Char) : Nat := l.foldl (fun acc c => acc * 10 + (c.toNat - 48)) 0

theorem parseDec_append_digit (l : List Char) (c : Char) :
    parseDec (l ++ [c]) = parseDec l * 10 + (c.toNat - 48) := by
  simp [parseDec, List.foldl_append]

theorem parseDec_decDigits : ∀ fuel n, n < fuel → parseDec (decDigitsAux fuel n) = n := by
  intro fuel
  induction fuel with
  | zero => intro n h; omega
  | succ fuel ih =>
    intro n h
    by_cases h0 : n = 0
    · subst h0; simp [decDigitsAux, parseDec]
    · have hd : (digitCharD (n % 10)).toNat = 48 + n % 10 := by
        rw [digitCharD]; exact toNat_ofNat_small (by omega)
      have hdiv : n / 10 < fuel := by
        have h1 := Nat.div_lt_self (by omega : 0 < n) (by omega : 1 < 10)
        omega
      rw [decDigitsAux, if_neg h0, parseDec_append_digit, ih (n / 10) hdiv, hd]
      omega

theorem decDigits_ne_nil {fuel n : Nat} (hn : n ≠ 0) (hf : fuel ≠ 0) :
    decDigitsAux fuel n ≠ [] := by
  cases fuel with
  | zero => omega
  | succ fuel => simp [decDigitsAux, hn]

theorem natRepr_inj {m n : Nat} (h : natRepr m = natRepr n) : m = n := by
  have hdata := congrArg String.data h
  unfold natRepr at hdata
  have h0 : ("0" : String).data = ['0'] := rfl
  by_cases hm : m = 0 <;> by_cases hn : n = 0
  · omega
  · rw [if_pos hm, if_neg hn, h0] at hdata
    have hd2 : decDigitsAux (n + 1) n = ['0'] := (hdata : ['0'] = decDigitsAux (n + 1) n).symm
    have := parseDec_decDigits (n + 1) n (by omega)
    rw [hd2] at this
    simp [parseDec] at this
    omega
  · rw [if_neg hm, if_pos hn, h0] at hdata
    have hd2 : decDigitsAux (m + 1) m = ['0'] := (hdata : decDigitsAux (m + 1) m = ['0'])
    have := parseDec_decDigits (m + 1) m (by omega)
    rw [hd2] at this
    simp [parseDec] at this
    omega
  · rw [if_neg hm, if_neg hn] at hdata
    have hd2 : decDigitsAux (m + 1) m = decDigitsAux (n + 1) n := hdata
    have h1 := parseDec_decDigits (m + 1) m (by omega)
    have h2 := parseDec_decDigits (n + 1) n (by omega)
    rw [hd2] at h1
    omega

theorem natRepr_length_pos (n : Nat) : 0 < (natRepr n).length := by
  unfold natRepr
  by_cases h : n = 0
  · rw [if_pos h]; decide
  · rw [if_neg h]
    have := @decDigits_ne_nil (n + 1) n h (by omega)
    have hlen : (String.mk (decDigitsAux (n + 1) n)).length = (decDigitsAux (n + 1) n).length := rfl
    rw [hlen]
    exact List.length_pos.mpr this

theorem string_eq_of_data_eq {a b : String} (h : a.data = b.data) : a = b := by
  cases a
  cases b
  exact congrArg String.mk h

theorem candidate_inj (base : String) {j k : Nat} (h : candidate base j = candidate base k) :
    j = k := by
  unfold candidate at h
  by_cases hj : j = 0 <;> by_cases hk : k = 0
  · omega
  · exfalso
    rw [if_pos hj, if_neg hk] at h
    have := congrArg String.length h
    rw [String.length_append, String.length_append] at this
    have h1 : (1 : Nat) ≤ ("_" : String).length := by decide
    have h2 := natRepr_length_pos k
    omega
  · exfalso
    rw [if_neg hj, if_pos hk] at h
    have := congrArg String.length h
    rw [String.length_append, String.length_append] at this
    have h1 : (1 : Nat) ≤ ("_" : String).length := by decide
    have h2 := natRepr_length_pos j
    omega
  · rw [if_neg hj, if_neg hk] at h
    have hdata := congrArg String.data h
    rw [String.data_append, String.data_append, String.data_append, String.data_append,
        List.append_assoc, List.append_assoc] at hdata
    have h2 := List.append_cancel_left hdata
    have h3 := List.append_cancel_left h2
    exact natRepr_inj (string_eq_of_data_eq h3)

theorem exists_fresh (base : String) (used : List String) :
    ∃ j, j ≤ used.length + 1 ∧ candidate base j ∉ used := by
  by_contra hc
  push_neg at hc
  have hinj : Set.InjOn (candidate base) ↑(Finset.range (used.length + 2)) :=
    fun a _ b _ h => candidate_inj base h
  have hsub : (Finset.range (used.length + 2)).image (candidate base) ⊆ used.toFinset := by
    intro x hx
    rw [Finset.mem_image] at hx
    obtain ⟨j, hj, rfl⟩ := hx
    rw [List.mem_toFinset]
    exact hc j (by simpa using Nat.lt_succ_iff.mp (Finset.mem_range.mp hj))
  have h1 : (Finset.range (used.length + 2)).card = used.length + 2 := Finset.card_range _
  have h2 := Finset.card_image_of_injOn hinj
  have h3 := Finset.card_le_card hsub
  have h4 := used.toFinset_card_le
  omega

theorem pickFreshAux_not_mem (base : String) (used : List String) :
    ∀ fuel k, (∃ j, k ≤ j ∧ j ≤ k + fuel ∧ candidate base j ∉ used) →
    pickFreshAux base used fuel k ∉ used := by
  intro fuel
  induction fuel with
  | zero =>
    rintro k ⟨j, h1, h2, h3⟩
    have : j = k := by omega
    subst this
    simpa [pickFreshAux] using h3
  | succ fuel ih =>
    rintro k ⟨j, h1, h2, h3⟩
    rw [pickFreshAux]
    by_cases hm : candidate base k ∈ used
    · rw [if_pos hm]
      apply ih
      have hjk : j ≠ k := by
        intro e
        subst e
        exact h3 hm
      exact ⟨j, by omega, by omega, h3⟩
    · rw [if_neg hm]
      exact hm

theorem pickFresh_not_mem (base : String) (used : List String) :
    pickFresh base used ∉ used := by
  obtain ⟨j, hj, hfresh⟩ := exists_fresh base used
  exact pickFreshAux_not_mem base used _ 0 ⟨j, by omega, by omega, hfresh⟩

theorem pickFresh_of_not_mem {base : String} {used : List String} (h : base ∉ used) :
    pickFresh base used = base := by
  have h0 : candidate base 0 = base := by simp [candidate]
  rw [pickFresh, pickFreshAux, h0, if_neg h]

theorem pickFreshAux_is_candidate (base : String) (used : List String) :
    ∀ fuel k, ∃ j, k ≤ j ∧ pickFreshAux base used fuel k = candidate base j := by
  intro fuel
  induction fuel with
  | zero => intro k; exact ⟨k, le_refl k, rfl⟩
  | succ fuel ih =>
    intro k
    rw [pickFreshAux]
    by_cases hm : candidate base k ∈ used
    · rw [if_pos hm]
      obtain ⟨j, hj, he⟩ := ih (k + 1)
      exact ⟨j, by omega, he⟩
    · rw [if_neg hm]
      exact ⟨k, le_refl k, rfl⟩

theorem pickFresh_suffix_form {base : String} {used : List String} (h : base ∈ used) :
    ∃ k, 1 ≤ k ∧ pickFresh base used = base ++ "_" ++ natRepr k := by
  obtain ⟨j, _, he⟩ := pickFreshAux_is_candidate base used (used.length + 1) 0
  rcases Nat.eq_zero_or_pos j with hj | hj
  · exfalso
    subst hj
    have := pickFresh_not_mem base used
    rw [pickFresh] at this
    rw [he] at this
    simp [candidate] at this
    exact this h
  · refine ⟨j, hj, ?_⟩
    rw [pickFresh, he]
    simp [candidate, Nat.pos_iff_ne_zero.mp hj]

/-! ### Invariants of the mapping builder -/

/-- Pairwise-distinct obfuscated names (the Mapping Set uniqueness invariant). -/
def distinctObf (a b : ClassMapping) : Prop := a.obfuscated ≠ b.obfuscated

/-- The order contract of the Mapping Set: non-increasing length of the
original, ties in lexicographic order of the originals. -/
def lenLexOrder (a b : ClassMapping) : Prop :=
  b.original.length ≤ a.original.length ∧
    (a.original.length = b.original.length → strLt a.original b.original = true)

theorem buildAux_fresh (method : String) (exclude : List String) :
    ∀ cs used ms, buildAux method exclude cs used = .ok ms →
      (∀ m ∈ ms, m.obfuscated ∉ used) ∧ ms.Pairwise distinctObf := by
  intro cs
  induction cs with
  | nil =>
    intro used ms h
    rw [buildAux] at h
    injection h with h
    subst h
    simp
  | cons c cs ih =>
    intro used ms h
    rw [buildAux] at h
    by_cases hc : c = "" ∨ c ∈ exclude
    · rw [if_pos hc] at h
      exact ih used ms h
    · rw [if_neg hc] at h
      cases hobf : obfuscate_identifier c method with
      | error e => rw [hobf] at h; cases h
      | ok raw =>
        rw [hobf] at h
        simp only [] at h
        cases hrec : buildAux method exclude cs (pickFresh raw used :: used) with
        | error e => rw [hrec] at h; cases h
        | ok rest =>
          rw [hrec] at h
          injection h with h
          subst h
          obtain ⟨hout, hpair⟩ := ih (pickFresh raw used :: used) rest hrec
          constructor
          · intro m hm
            rcases List.mem_cons.mp hm with hm | hm
            · subst hm
              exact pickFresh_not_mem raw used
            · intro hin
              exact hout m hm (List.mem_cons_of_mem _ hin)
          · rw [List.pairwise_cons]
            constructor
            · intro m hm he
              exact hout m hm (he ▸ List.mem_cons_self _ _)
            · exact hpair

theorem buildAux_original_mem (method : String) (exclude : List String) :
    ∀ cs used ms, buildAux method exclude cs used = .ok ms →
      ∀ m ∈ ms, m.original ∈ cs := by
  intro cs
  induction cs with
  | nil =>
    intro used ms h
    rw [buildAux] at h
    injection h with h
    subst h
    simp
  | cons c cs ih =>
    intro used ms h
    rw [buildAux] at h
    by_cases hc : c = "" ∨ c ∈ exclude
    · rw [if_pos hc] at h
      intro m hm
      exact List.mem_cons_of_mem _ (ih used ms h m hm)
    · rw [if_neg hc] at h
      cases hobf : obfuscate_identifier c method with
      | error e => rw [hobf] at h; cases h
      | ok raw =>
        rw [hobf] at h
        simp only [] at h
        cases hrec : buildAux method exclude cs (pickFresh raw used :: used) with
        | error e => rw [hrec] at h; cases h
        | ok rest =>
          rw [hrec] at h
          injection h with h
          subst h
          intro m hm
          rcases List.mem_cons.mp hm with hm | hm
          · subst hm
            exact List.mem_cons_self _ _
          · exact List.mem_cons_of_mem _ (ih _ rest hrec m hm)

theorem buildAux_pairwise_lt (method : String) (exclude : List String) :
    ∀ cs used ms, cs.Pairwise (fun a b => strLt a b = true) →
      buildAux method exclude cs used = .ok ms →
      ms.Pairwise (fun a b => strLt a.original b.original = true) := by
  intro cs
  induction cs with
  | nil =>
    intro used ms _ h
    rw [buildAux] at h
    injection h with h
    subst h
    simp
  | cons c cs ih =>
    intro used ms hsort h
    rw [List.pairwise_cons] at hsort
    rw [buildAux] at h
    by_cases hc : c = "" ∨ c ∈ exclude
    · rw [if_pos hc] at h
      exact ih used ms hsort.2 h
    · rw [if_neg hc] at h
      cases hobf : obfuscate_identifier c method with
      | error e => rw [hobf] at h; cases h
      | ok raw =>
        rw [hobf] at h
        simp only [] at h
        cases hrec : buildAux method exclude cs (pickFresh raw used :: used) with
        | error e => rw [hrec] at h; cases h
        | ok rest =>
          rw [hrec] at h
          injection h with h
          subst h
          rw [List.pairwise_cons]
          constructor
          · intro m hm
            exact hsort.1 _ (buildAux_original_mem method exclude cs _ rest hrec m hm)
          · exact ih _ rest hsort.2 hrec

/-! ### The lexicographic sorted-set scan order -/

theorem listLtChars_trichotomy : ∀ as bs : List Char,
    listLtChars as bs = true ∨ listLtChars bs as = true ∨ as = bs := by
  intro as
  induction as with
  | nil =>
    intro bs
    cases bs with
    | nil => simp [listLtChars]
    | cons b bs => simp [listLtChars]
  | cons a as ih =>
    intro bs
    cases bs with
    | nil => simp [listLtChars]
    | cons b bs =>
      by_cases hab : a.toNat < b.toNat
      · exact Or.inl (by simp [listLtChars, hab])
      · by_cases hba : b.toNat < a.toNat
        · exact Or.inr (Or.inl (by simp [listLtChars, hba]))
        · have hcc : a = b := char_eq_iff_toNat.mpr (by omega)
          subst hcc
          rcases ih bs with h | h | h
          · exact Or.inl (by simp [listLtChars, h])
          · exact Or.inr (Or.inl (by simp [listLtChars, h]))
          · exact Or.inr (Or.inr (by rw [h]))

theorem listLtChars_trans : ∀ as bs cs : List Char,
    listLtChars as bs = true → listLtChars bs cs = true → listLtChars as cs = true := by
  intro as
  induction as with
  | nil =>
    intro bs cs h1 h2
    cases bs with
    | nil => exact h2
    | cons b bs =>
      cases cs with
      | nil => simp [listLtChars] at h2
      | cons c cs => simp [listLtChars]
  | cons a as ih =>
    intro bs cs h1 h2
    cases bs with
    | nil => simp [listLtChars] at h1
    | cons b bs =>
      cases cs with
      | nil => simp [listLtChars] at h2
      | cons c cs =>
        rw [listLtChars] at h1 h2 ⊢
        split at h1
        case isTrue hab =>
          split at h2
          case isTrue hbc =>
            rw [if_pos (show a.toNat < c.toNat by omega)]
          case isFalse hbc =>
            split at h2
            case isTrue hcb => exact absurd h2 (by simp)
            case isFalse hcb =>
              have hbc2 : b = c := char_eq_iff_toNat.mpr (by omega)
              subst hbc2
              rw [if_pos hab]
        case isFalse hab =>
          split at h1
          case isTrue hba => exact absurd h1 (by simp)
          case isFalse hba =>
            have hab2 : a = b := char_eq_iff_toNat.mpr (by omega)
            subst hab2
            split at h2
            case isTrue hac => rw [if_pos hac]
            case isFalse hac =>
              split at h2
              case isTrue hca => exact absurd h2 (by simp)
              case isFalse hca =>
                rw [if_neg hac, if_neg hca]
                exact ih bs cs h1 h2

theorem strLt_trichotomy (a b : String) :
    strLt a b = true ∨ strLt b a = true ∨ a = b := by
  rcases listLtChars_trichotomy a.data b.data with h | h | h
  · exact Or.inl h
  · exact Or.inr (Or.inl h)
  · exact Or.inr (Or.inr (string_eq_of_data_eq h))

theorem strLt_trans {a b c : String} (h1 : strLt a b = true) (h2 : strLt b c = true) :
    strLt a c = true :=
  listLtChars_trans a.data b.data c.data h1 h2

theorem mem_insertSorted {x z : String} :
    ∀ {l : List String}, z ∈ insertSorted x l → z = x ∨ z ∈ l := by
  intro l
  induction l with
  | nil => intro h; simpa [insertSorted] using h
  | cons y ys ih =>
    intro h
    rw [insertSorted] at h
    by_cases h1 : strLt x y = true
    · rw [if_pos h1] at h
      rcases List.mem_cons.mp h with h | h
      · exact Or.inl h
      · exact Or.inr h
    · rw [if_neg h1] at h
      by_cases h2 : x = y
      · rw [if_pos h2] at h
        exact Or.inr h
      · rw [if_neg h2] at h
        rcases List.mem_cons.mp h with h | h
        · exact Or.inr (h ▸ List.mem_cons_self _ _)
        · rcases ih h with h | h
          · exact Or.inl h
          · exact Or.inr (List.mem_cons_of_mem _ h)

theorem insertSorted_pairwise (x : String) :
    ∀ l : List String, l.Pairwise (fun a b => strLt a b = true) →
      (insertSorted x l).Pairwise (fun a b => strLt a b = true) := by
  intro l
  induction l with
  | nil => intro _; simp [insertSorted]
  | cons y ys ih =>
    intro h
    rw [List.pairwise_cons] at h
    rw [insertSorted]
    by_cases h1 : strLt x y = true
    · rw [if_pos h1]
      rw [List.pairwise_cons]
      constructor
      · intro z hz
        rcases List.mem_cons.mp hz with hz | hz
        · exact hz ▸ h1
        · exact strLt_trans h1 (h.1 z hz)
      · rw [List.pairwise_cons]
        exact h
    · rw [if_neg h1]
      by_cases h2 : x = y
      · rw [if_pos h2]
        rw [List.pairwise_cons]
        exact h
      · rw [if_neg h2]
        have hyx : strLt y x = true := by
          rcases strLt_trichotomy x y with h3 | h3 | h3
          · exact absurd h3 h1
          · exact h3
          · exact absurd h3 h2
        rw [List.pairwise_cons]
        constructor
        · intro z hz
          rcases mem_insertSorted hz with hz | hz
          · exact hz ▸ hyx
          · exact h.1 z hz
        · exact ih h.2

theorem sortedDedup_pairwise (l : List String) :
    (sortedDedup l).Pairwise (fun a b => strLt a b = true) := by
  induction l with
  | nil => simp [sortedDedup]
  | cons x xs ih => exact insertSorted_pairwise x _ ih

/-! ### The final stable sort by descending original length -/

theorem mem_insertByLen {x z : ClassMapping} :
    ∀ {l : List ClassMapping}, z ∈ insertByLen x l → z = x ∨ z ∈ l := by
  intro l
  induction l with
  | nil => intro h; simpa [insertByLen] using h
  | cons y ys ih =>
    intro h
    rw [insertByLen] at h
    by_cases h1 : x.original.length < y.original.length
    · rw [if_pos h1] at h
      rcases List.mem_cons.mp h with h | h
      · exact Or.inr (h ▸ List.mem_cons_self _ _)
      · rcases ih h with h | h
        · exact Or.inl h
        · exact Or.inr (List.mem_cons_of_mem _ h)
    · rw [if_neg h1] at h
      rcases List.mem_cons.mp h with h | h
      · exact Or.inl h
      · exact Or.inr h

theorem insertByLen_perm (x : ClassMapping) :
    ∀ l : List ClassMapping, List.Perm (insertByLen x l) (x :: l) := by
  intro l
  induction l with
  | nil => simp [insertByLen]
  | cons y ys ih =>
    rw [insertByLen]
    by_cases h1 : x.original.length < y.original.length
    · rw [if_pos h1]
      exact (List.Perm.cons y ih).trans (List.Perm.swap x y ys)
    · rw [if_neg h1]

theorem sortByLenDesc_perm (l : List ClassMapping) : List.Perm (sortByLenDesc l) l := by
  induction l with
  | nil => simp [sortByLenDesc]
  | cons x xs ih =>
    exact (insertByLen_perm x _).trans (List.Perm.cons x ih)

theorem insertByLen_pairwise (x : ClassMapping) :
    ∀ l : List ClassMapping, l.Pairwise lenLexOrder →
      (∀ y ∈ l, strLt x.original y.original = true) →
      (insertByLen x l).Pairwise lenLexOrder := by
  intro l
  induction l with
  | nil => intro _ _; simp [insertByLen, List.pairwise_cons]
  | cons y ys ih =>
    intro h hx
    rw [List.pairwise_cons] at h
    rw [insertByLen]
    by_cases h1 : x.original.length < y.original.length
    · rw [if_pos h1]
      rw [List.pairwise_cons]
      constructor
      · intro z hz
        rcases mem_insertByLen hz with hz | hz
        · subst hz
          exact ⟨by omega, fun he => absurd he (by omega)⟩
        · exact h.1 z hz
      · exact ih h.2 (fun z hz => hx z (List.mem_cons_of_mem _ hz))
    · rw [if_neg h1]
      rw [List.pairwise_cons]
      constructor
      · intro z hz
        rcases List.mem_cons.mp hz with hz | hz
        · subst hz
          exact ⟨by omega, fun _ => hx z (List.mem_cons_self _ _)⟩
        · obtain ⟨hlen, _⟩ := h.1 z hz
          exact ⟨by omega, fun he => hx z (List.mem_cons_of_mem _ hz)⟩
      · rw [List.pairwise_cons]
        exact h

theorem sortByLenDesc_pairwise :
    ∀ l : List ClassMapping, l.Pairwise (fun a b => strLt a.original b.original = true) →
      (sortByLenDesc l).Pairwise lenLexOrder := by
  intro l
  induction l with
  | nil => intro _; simp [sortByLenDesc]
  | cons x xs ih =>
    intro h
    rw [List.pairwise_cons] at h
    apply insertByLen_pairwise x _ (ih h.2)
    intro y hy
    have : y ∈ xs := (sortByLenDesc_perm xs).mem_iff.mp hy
    exact h.1 y this

/-! ### Claim C2 / C3 theorems -/

/-- C2: for every finite set of class names, every method and every exclusion
set, a successful `build_class_mapping` yields pairwise-distinct obfuscated
values; collisions are resolved by appending numeric suffixes `_1, _2, ...`
and the freshness check is against the set of all previously assigned
obfuscated names. -/
theorem build_class_mapping_distinct
    (all_classes : List String) (method : String) (exclude : List String)
    (ms : List ClassMapping) (h : build_class_mapping all_classes method exclude = .ok ms) :
    ms.Pairwise distinctObf ∧
    (∀ base used, pickFresh base used ∉ used) ∧
    (∀ base used, base ∉ used → pickFresh base used = base) ∧
    (∀ base used, base ∈ used →
      ∃ k, 1 ≤ k ∧ pickFresh base used = base ++ "_" ++ natRepr k) := by
  refine ⟨?_, pickFresh_not_mem, fun _ _ h2 => pickFresh_of_not_mem h2,
    fun _ _ h2 => pickFresh_suffix_form h2⟩
  rw [build_class_mapping] at h
  cases hb : buildAux method exclude (sortedDedup all_classes) [] with
  | error e => rw [hb] at h; cases h
  | ok ms0 =>
    rw [hb] at h
    simp only [Except.map] at h
    injection h with h
    subst h
    have hpair := (buildAux_fresh method exclude _ [] ms0 hb).2
    exact ((sortByLenDesc_perm ms0).pairwise_iff (fun h2 => Ne.symm h2)).mpr hpair

theorem build_class_mapping_distinct_witness :
    List.Pairwise distinctObf
      [⟨"abc", "def"⟩, ⟨"ab", "cd"⟩] :=
  (build_class_mapping_distinct ["ab", "abc"] "shift" []
    [⟨"abc", "def"⟩, ⟨"ab", "cd"⟩] (by decide)).1

/-- C3: a successful `build_class_mapping` result is ordered by non-increasing
length of the original name, with equal-length originals in lexicographic
order (the scan order). -/
theorem build_class_mapping_ordered
    (all_classes : List String) (method : String) (exclude : List String)
    (ms : List ClassMapping) (h : build_class_mapping all_classes method exclude = .ok ms) :
    ms.Pairwise lenLexOrder := by
  rw [build_class_mapping] at h
  cases hb : buildAux method exclude (sortedDedup all_classes) [] with
  | error e => rw [hb] at h; cases h
  | ok ms0 =>
    rw [hb] at h
    simp only [Except.map] at h
    injection h with h
    subst h
    exact sortByLenDesc_pairwise ms0
      (buildAux_pairwise_lt method exclude _ [] ms0 (sortedDedup_pairwise _) hb)

theorem build_class_mapping_ordered_witness :
    List.Pairwise lenLexOrder
      [⟨"bb", "dd"⟩, ⟨"cc", "ee"⟩, ⟨"a", "b"⟩] :=
  build_class_mapping_ordered ["bb", "a", "cc"] "shift" []
    [⟨"bb", "dd"⟩, ⟨"cc", "ee"⟩, ⟨"a", "b"⟩] (by decide)

/-! ### Claims about the identifier transform (C8, C9, C10) -/

/-- Specification of one shifted character: alphabetic characters rotate by
`n` within their own case range (uppercase stays uppercase, lowercase stays
lowercase, modulo 26), non-alphabetic characters are unchanged. -/
def shiftedOk (n : Nat) (c d : Char) : Bool :=
  if c.isUpper then d.isUpper && (d.toNat == 65 + (c.toNat - 65 + n) % 26)
  else if c.isLower then d.isLower && (d.toNat == 97 + (c.toNat - 97 + n) % 26)
  else d == c

theorem shiftedOk_shiftChar (n : Nat) (c : Char) : shiftedOk n c (shiftChar n c) = true := by
  by_cases hu : c.isUpper = true
  · have ht := shiftChar_toNat_of_upper (n := n) hu
    have hm : (c.toNat - 65 + n) % 26 < 26 := Nat.mod_lt _ (by omega)
    have hup : (shiftChar n c).isUpper = true := by
      rw [isUpper_iff, ht]
      omega
    simp [shiftedOk, hu, hup, ht]
  · by_cases hl : c.isLower = true
    · have ht := shiftChar_toNat_of_lower (n := n) hl
      have hm : (c.toNat - 97 + n) % 26 < 26 := Nat.mod_lt _ (by omega)
      have hlo : (shiftChar n c).isLower = true := by
        rw [isLower_iff, ht]
        omega
      simp [shiftedOk, hu, hl, hlo, ht]
    · have ha : c.isAlpha = false := by
        simp [Char.isAlpha]
        exact ⟨by simpa using hu, by simpa using hl⟩
      simp [shiftedOk, hu, hl, shiftChar_of_not_alpha (n := n) ha]

theorem zip_map_all {f : Char → Char} {p : Char → Char → Bool}
    (hp : ∀ c, p c (f c) = true) : ∀ l : List Char,
    ((l.zip (l.map f)).all fun q => p q.1 q.2) = true := by
  intro l
  induction l with
  | nil => rfl
  | cons c cs ih => simpa [hp c] using ih

/-- C8: the "shift" method rotates every alphabetic character by the length
of the whole identifier within its own case range, leaves non-alphabetic
characters unchanged, returns the empty identifier unchanged, and maps
"btn" to "ewq". -/
theorem obfuscate_shift_spec (s : String) :
    (obfuscate_identifier s "shift").map String.length = .ok s.length ∧
    ((obfuscate_identifier s "shift").map
      fun t => (s.data.zip t.data).all fun p => shiftedOk s.length p.1 p.2) = .ok true ∧
    obfuscate_identifier "btn" "shift" = .ok "ewq" ∧
    obfuscate_identifier "" "shift" = .ok "" := by
  refine ⟨?_, ?_, by decide, by decide⟩
  · by_cases h : s = ""
    · subst h; decide
    · simp only [obfuscate_identifier, if_neg h, eq_self_iff_true, if_true, Except.map]
      have : (String.mk (s.data.map (shiftChar s.length))).length = s.length := by
        show (s.data.map (shiftChar s.length)).length = s.length
        rw [List.length_map]
        rfl
      rw [this]
  · by_cases h : s = ""
    · subst h; decide
    · simp only [obfuscate_identifier, if_neg h, eq_self_iff_true, if_true, Except.map]
      rw [zip_map_all (shiftedOk_shiftChar s.length)]

theorem flatMap_byteHex_length : ∀ l : List Nat, (l.flatMap byteHex).length = 2 * l.length := by
  intro l
  induction l with
  | nil => rfl
  | cons b bs ih =>
    simp [List.flatMap_cons, byteHex] at ih ⊢
    omega

theorem md5Bytes_length (msg : List Nat) : (md5Bytes msg).length = 16 := by
  simp [md5Bytes, le4]

theorem md5HexChars_length (msg : List Nat) : (md5HexChars msg).length = 32 := by
  rw [md5HexChars, flatMap_byteHex_length, md5Bytes_length]

/-- C9: for every non-empty identifier, the "hash" method produces a string
of length exactly 9 whose first character is the fixed letter `c` (so the
result never begins with a digit); as a Lean function it is deterministic by
construction. -/
theorem obfuscate_hash_shape (s : String) (h : s ≠ "") :
    (obfuscate_identifier s "hash").map String.length = .ok 9 ∧
    ((obfuscate_identifier s "hash").map fun t => t.data.head?) = .ok (some 'c') := by
  have hne : (s = "") = False := by simp [h]
  simp only [obfuscate_identifier, hne, if_false, if_neg (by decide : ¬("hash" : String) = "shift"),
    eq_self_iff_true, if_true, Except.map]
  constructor
  · have hlen : ("c" ++ String.mk ((md5HexChars (utf8Bytes s)).take 8)).length
        = 1 + ((md5HexChars (utf8Bytes s)).take 8).length := by
      rw [String.length_append]
      rfl
    rw [hlen, List.length_take, md5HexChars_length]
    rfl
  · have hdata : ("c" ++ String.mk ((md5HexChars (utf8Bytes s)).take 8)).data
        = 'c' :: (md5HexChars (utf8Bytes s)).take 8 := by
      rw [String.data_append]
      rfl
    rw [hdata]
    rfl

theorem obfuscate_hash_shape_witness :
    ((obfuscate_identifier "a" "hash").map String.length = .ok 9 ∧
    ((obfuscate_identifier "a" "hash").map fun t => t.data.head?) = .ok (some 'c')) :=
  obfuscate_hash_shape "a" (by decide)

theorem list_map_eq_self_iff {α : Type} (f : α → α) :
    ∀ l : List α, (l.map f = l ↔ ∀ c ∈ l, f c = c) := by
  intro l
  induction l with
  | nil => simp
  | cons c cs ih => simp [ih]

theorem shiftChar_eq_self_iff (n : Nat) (c : Char) :
    shiftChar n c = c ↔ (c.isAlpha = false ∨ n % 26 = 0) := by
  by_cases hu : c.isUpper = true
  · have ha : c.isAlpha = true := by simp [Char.isAlpha, hu]
    have hb := isUpper_iff.mp hu
    rw [char_eq_iff_toNat, shiftChar_toNat_of_upper (n := n) hu]
    simp only [ha]
    constructor
    · intro he
      right
      omega
    · intro he
      rcases he with he | he
      · cases he
      · omega
  · by_cases hl : c.isLower = true
    · have ha : c.isAlpha = true := by simp [Char.isAlpha, hl]
      have hb := isLower_iff.mp hl
      rw [char_eq_iff_toNat, shiftChar_toNat_of_lower (n := n) hl]
      simp only [ha]
      constructor
      · intro he
        right
        omega
      · intro he
        rcases he with he | he
        · cases he
        · omega
    · have ha : c.isAlpha = false := by
        simp [Char.isAlpha]
        exact ⟨by simpa using hu, by simpa using hl⟩
      simp [shiftChar_of_not_alpha (n := n) ha, ha]

/-- C10: the "shift" method returns a non-empty identifier unchanged exactly
when the identifier contains no alphabetic character or its length is a
multiple of 26; consequently `build_class_mapping` with method "shift" can
return a mapping whose obfuscated name equals its original (witnessed by the
digit-only class name "123"). -/
theorem obfuscate_shift_fixed_point (s : String) (h : s ≠ "") :
    (obfuscate_identifier s "shift" = .ok s ↔
      ((s.data.all fun c => !c.isAlpha) = true ∨ s.length % 26 = 0)) ∧
    build_class_mapping ["123"] "shift" [] = .ok [⟨"123", "123"⟩] := by
  refine ⟨?_, by decide⟩
  simp only [obfuscate_identifier, if_neg h, eq_self_iff_true, if_true, Except.ok.injEq]
  constructor
  · intro he
    have hdata : s.data.map (shiftChar s.length) = s.data := congrArg String.data he
    have hall := (list_map_eq_self_iff _ s.data).mp hdata
    by_cases hz : s.length % 26 = 0
    · exact Or.inr hz
    · left
      rw [List.all_eq_true]
      intro c hc
      rcases (shiftChar_eq_self_iff s.length c).mp (hall c hc) with h2 | h2
      · simp [h2]
      · exact absurd h2 hz
  · intro he
    apply string_eq_of_data_eq
    show s.data.map (shiftChar s.length) = s.data
    rw [list_map_eq_self_iff]
    intro c hc
    rw [shiftChar_eq_self_iff]
    rcases he with he | he
    · left
      rw [List.all_eq_true] at he
      simpa using he c hc
    · exact Or.inr he

theorem obfuscate_shift_fixed_point_witness :
    ((obfuscate_identifier "123" "shift" = .ok "123" ↔
      ((("123" : String).data.all fun c => !c.isAlpha) = true ∨
        ("123" : String).length % 26 = 0)) ∧
    build_class_mapping ["123"] "shift" [] = .ok [⟨"123", "123"⟩]) :=
  obfuscate_shift_fixed_point "123" (by decide)

/-! ### `process_css_content` (src/obfuscator.py, lines 171-178) -/

/-- Python regex word character (ASCII fragment of `\w`). -/
def isWordChar (c : Char) : Bool := c.isAlphanum || c = '_'

/-- The trailing `\b` of the pattern `\.orig\b`: a word boundary between the
last pattern character and the following text (at end of input the boundary
holds when the last pattern character is a word character). -/
def boundaryOk (prev : Char) : List Char → Bool
  | [] => isWordChar prev
  | d :: _ => isWordChar prev != isWordChar d

/-- Left-to-right, non-overlapping `re.sub(rf"\.{re.escape(orig)}\b", "." + repl, s)`;
`orig` is matched literally (that is what `re.escape` arranges) and the
replacement text is literal (the produced class names contain no backslash).
Fuel-indexed for structural recursion; every step consumes at least one
character, so fuel `s.length` suffices. -/
def reSubF (orig repl : List Char) : Nat → List Char → List Char
  | 0, s => s
  | _, [] => []
  | fuel+1, c :: cs =>
    if c = '.' && orig.isPrefixOf cs && boundaryOk (orig.getLastD '.') (cs.drop orig.length) then
      ('.' :: repl) ++ reSubF orig repl fuel (cs.drop orig.length)
    else
      c :: reSubF orig repl fuel cs

/-- Embedding of `process_css_content`: apply each mapping in order. -/
def process_css_content (content : String) (mappings : List ClassMapping) : String :=
  mappings.foldl
    (fun acc m => String.mk (reSubF m.original.data m.obfuscated.data acc.data.length acc.data))
    content

/-- True at every position of the text: no occurrence of `"." ++ orig` there
passes the word-boundary test, i.e. the pattern `\.orig\b` has no match. -/
def allBlocked (orig : List Char) : List Char → Bool
  | [] => true
  | c :: cs =>
    (!(c = '.' && orig.isPrefixOf cs && boundaryOk (orig.getLastD '.') (cs.drop orig.length)))
      && allBlocked orig cs

theorem allBlocked_reSubF (orig repl : List Char) :
    ∀ fuel s, allBlocked orig s = true → reSubF orig repl fuel s = s := by
  intro fuel
  induction fuel with
  | zero =>
    intro s _
    cases s <;> rfl
  | succ fuel ih =>
    intro s hs
    cases s with
    | nil => rfl
    | cons c cs =>
      rw [allBlocked, Bool.and_eq_true, Bool.not_eq_true'] at hs
      rw [reSubF, if_neg (by rw [hs.1]; exact Bool.false_ne_true)]
      rw [ih cs hs.2]

/-- C1 (counterexample): the regex `\b` is not blocked by a hyphen, so the
replacement does rewrite `.btn` inside `.btn-primary`, and the output claimed
by the specification is not produced. -/
theorem process_css_claimC1_counter :
    ¬ (process_css_content ".btn\x7bcolor:red\x7d.btn-primary\x7bcolor:blue\x7d"
        [⟨"btn", "ewq"⟩]
      = ".ewq\x7bcolor:red\x7d.btn-primary\x7bcolor:blue\x7d") := by
  decide

/-- C1 (amended): `process_css_content` replaces `.orig` as a whole token
with respect to regex word characters: a match is blocked exactly by a
following letter, digit or underscore (so `.btnx` is untouched), while a
following hyphen does not block it; on the spec example both `.btn` and the
`.btn` prefix of `.btn-primary` are rewritten.  Whenever no occurrence of
`.orig` in the content passes the word-boundary test, the content is
returned unchanged. -/
theorem process_css_whole_token :
    process_css_content ".btn\x7bcolor:red\x7d.btn-primary\x7bcolor:blue\x7d"
        [⟨"btn", "ewq"⟩]
      = ".ewq\x7bcolor:red\x7d.ewq-primary\x7bcolor:blue\x7d" ∧
    process_css_content ".btn\x7bcolor:red\x7d.btnx\x7bcolor:blue\x7d" [⟨"btn", "ewq"⟩]
      = ".ewq\x7bcolor:red\x7d.btnx\x7bcolor:blue\x7d" ∧
    (∀ m : ClassMapping, ∀ content : String,
      allBlocked m.original.data content.data = true →
      process_css_content content [m] = content) := by
  refine ⟨by decide, by decide, ?_⟩
  intro m content hb
  show String.mk (reSubF m.original.data m.obfuscated.data content.data.length content.data)
      = content
  rw [allBlocked_reSubF m.original.data m.obfuscated.data content.data.length content.data hb]

theorem process_css_whole_token_witness :
    process_css_content ".btnx" [⟨"btn", "ewq"⟩] = ".btnx" :=
  process_css_whole_token.2.2 ⟨"btn", "ewq"⟩ ".btnx" (by decide)

/-! ### HTML documents: the BeautifulSoup tree of `process_html_content`
(src/obfuscator.py, lines 180-230).  Parsing and serialization of the
external parser are outside the model; the function is embedded as the
transformation it performs on the parsed document tree. -/

mutual
inductive Node where
  | text (s : String)
  | elem (tag : String) (attrs : List (String × String)) (children : NodeList)
inductive NodeList where
  | nil
  | cons (n : Node) (ns : NodeList)
end

deriving instance DecidableEq for Node
deriving instance DecidableEq for NodeList

/-- `str.split()` with no argument: split on whitespace runs, dropping empty
tokens (the way BeautifulSoup tokenizes multi-valued attributes). -/
def splitWSChars : List Char → List Char → List String
  | [], cur => if cur = [] then [] else [String.mk cur.reverse]
  | c :: cs, cur =>
    if c.isWhitespace then
      if cur = [] then splitWSChars cs [] else String.mk cur.reverse :: splitWSChars cs []
    else splitWSChars cs (c :: cur)

def splitWS (s : String) : List String := splitWSChars s.data []

def findAttr (attrs : List (String × String)) (name : String) : Option String :=
  (attrs.find? fun p => p.1 == name).map (·.2)

/-- The lookup in the dict `{m.original: m.obfuscated for m in mappings}`
(line 195): on duplicate originals the last mapping wins. -/
def classLookup (mappings : List ClassMapping) (c : String) : String :=
  match mappings.reverse.find? fun m => m.original == c with
  | some m => m.obfuscated
  | none => c

/-- The class-attribute update of lines 221-228: tokenize, map each token
through the lookup, and reassign (joined by single spaces on serialization)
unless the token list is empty. -/
def processClassValue (mappings : List ClassMapping) (v : String) : String :=
  let updated := (splitWS v).map (classLookup mappings)
  if updated = [] then v else String.intercalate " " updated

/-- `Path(p).name`: the component after the last slash. -/
def baseNameAux : List Char → List Char → List Char
  | [], acc => acc.reverse
  | c :: cs, acc => if c = '/' then baseNameAux cs [] else baseNameAux cs (c :: acc)

def baseName (p : String) : String := String.mk (baseNameAux p.data [])

def lastDotIdx : List Char → Nat → Option Nat → Option Nat
  | [], _, r => r
  | c :: cs, i, r => lastDotIdx cs (i + 1) (if c = '.' then some i else r)

/-- `Path(name).stem` and `Path(name).suffix`: split at the last dot, except
that a dot at position 0 (a hidden file) yields no suffix. -/
def splitExt (name : String) : String × String :=
  match lastDotIdx name.data 0 none with
  | some i =>
    if i = 0 then (name, "")
    else (String.mk (name.data.take i), String.mk (name.data.drop i))
  | none => (name, "")

/-- `f"{Path(base).stem}{output_suffix}{Path(base).suffix}"` (line 201). -/
def obfBaseName (sfx base : String) : String :=
  (splitExt base).1 ++ sfx ++ (splitExt base).2

/-- The `css_file_mapping` dict of lines 198-201. -/
def cssFileTable (css_files : List String) (sfx : String) : List (String × String) :=
  css_files.map fun f => (baseName f, obfBaseName sfx (baseName f))

def tableLookup (tbl : List (String × String)) (k : String) : Option String :=
  (tbl.reverse.find? fun p => p.1 == k).map (·.2)

/-- `str.replace`: replace every occurrence of `pat` (left to right,
non-overlapping).  The callers only pass non-empty patterns. -/
def replaceSubF (pat repl : List Char) : Nat → List Char → List Char
  | 0, s => s
  | _, [] => []
  | fuel+1, c :: cs =>
    if pat ≠ [] ∧ pat.isPrefixOf (c :: cs) then
      repl ++ replaceSubF pat repl fuel ((c :: cs).drop pat.length)
    else
      c :: replaceSubF pat repl fuel cs

def strReplace (s pat repl : String) : String :=
  String.mk (replaceSubF pat.data repl.data s.data.length s.data)

/-- The `href` rewrite of lines 207-212: skip an empty `href`; if the base
file name is a key of the table, replace it inside the `href` (preserving any
directory prefix). -/
def hrefNew (tbl : List (String × String)) (href : String) : String :=
  if href = "" then href
  else
    match tableLookup tbl (baseName href) with
    | some nn => strReplace href (baseName href) nn
    | none => href

/-- `soup.find_all('link', rel='stylesheet')` membership test: a `link` tag
whose (multi-valued) `rel` attribute contains the token `stylesheet`. -/
def isStylesheetLink (tag : String) (attrs : List (String × String)) : Bool :=
  tag == "link" &&
    (match findAttr attrs "rel" with
     | some r => (splitWS r).contains "stylesheet"
     | none => false)

def hrefEditEntry (tbl : List (String × String)) (p : String × String) : String × String :=
  if p.1 == "href" then (p.1, hrefNew tbl p.2) else p

def classEditEntry (mappings : List ClassMapping) (p : String × String) : String × String :=
  if p.1 == "class" then (p.1, processClassValue mappings p.2) else p

mutual
def linksPass (tbl : List (String × String)) : Node → Node
  | .text s => .text s
  | .elem tag attrs cs =>
    .elem tag
      (if isStylesheetLink tag attrs then attrs.map (hrefEditEntry tbl) else attrs)
      (linksPassList tbl cs)
def linksPassList (tbl : List (String × String)) : NodeList → NodeList
  | .nil => .nil
  | .cons n ns => .cons (linksPass tbl n) (linksPassList tbl ns)
end

mutual
def stylesPass (mappings : List ClassMapping) : Node → Node
  | .text s => .text s
  | .elem tag attrs cs =>
    .elem tag attrs
      (if tag == "style" then
        match stylesPassList mappings cs with
        | .cons (.text t) .nil => .cons (.text (process_css_content t mappings)) .nil
        | other => other
      else stylesPassList mappings cs)
def stylesPassList (mappings : List ClassMapping) : NodeList → NodeList
  | .nil => .nil
  | .cons n ns => .cons (stylesPass mappings n) (stylesPassList mappings ns)
end

mutual
def classPass (mappings : List ClassMapping) : Node → Node
  | .text s => .text s
  | .elem tag attrs cs =>
    .elem tag (attrs.map (classEditEntry mappings)) (classPassList mappings cs)
def classPassList (mappings : List ClassMapping) : NodeList → NodeList
  | .nil => .nil
  | .cons n ns => .cons (classPass mappings n) (classPassList mappings ns)
end

/-- Embedding of `process_html_content` on the parsed document: first the
stylesheet-link pass (lines 206-213), then the inline-style pass (lines
216-218), then the class-attribute pass (lines 221-228). -/
def process_html_content (doc : Node) (mappings : List ClassMapping)
    (css_files : List String) (output_suffix : String) : Node :=
  classPass mappings
    (stylesPass mappings
      (linksPass (cssFileTable css_files output_suffix) doc))

/-! ### C4: structural frame of the HTML rewrite -/

/-- Erase exactly the fields the rewrite is allowed to change: values of
`class` attributes, values of `href` attributes on stylesheet links, and the
text content inside `style` elements.  Two documents equal after this erasure
agree on everything else: element count and nesting, tag names, attribute
names, attribute order, all other attribute values, all other text. -/
def stripEntry (isLink : Bool) (p : String × String) : String × String :=
  if p.1 == "class" then (p.1, "")
  else if isLink && p.1 == "href" then (p.1, "")
  else p

mutual
def stripMutable (inStyle : Bool) : Node → Node
  | .text s => .text (if inStyle then "" else s)
  | .elem tag attrs cs =>
    .elem tag (attrs.map (stripEntry (isStylesheetLink tag attrs)))
      (stripMutableList (tag == "style") cs)
def stripMutableList (inStyle : Bool) : NodeList → NodeList
  | .nil => .nil
  | .cons n ns => .cons (stripMutable inStyle n) (stripMutableList inStyle ns)
end

mutual
def countElems : Node → Nat
  | .text _ => 0
  | .elem _ _ cs => 1 + countElemsList cs
def countElemsList : NodeList → Nat
  | .nil => 0
  | .cons n ns => countElems n + countElemsList ns
end

theorem findAttr_map_eq {g : String × String → String × String} {name : String}
    (hname : ∀ p, (g p).1 = p.1) (hfix : ∀ p, p.1 = name → g p = p) :
    ∀ attrs, findAttr (attrs.map g) name = findAttr attrs name := by
  intro attrs
  induction attrs with
  | nil => rfl
  | cons p ps ih =>
    rw [List.map_cons]
    by_cases hb : (p.1 == name) = true
    · have hp : p.1 = name := by simpa using hb
      rw [hfix p hp]
      simp only [findAttr, List.find?_cons, hb]
    · have hb2 : (p.1 == name) = false := by simpa using hb
      have hgb : ((g p).1 == name) = false := by rw [hname p]; exact hb2
      simp only [findAttr, List.find?_cons, hgb, hb2]
      have ih2 := ih
      simp only [findAttr] at ih2
      exact ih2

theorem hrefEditEntry_name (tbl : List (String × String)) (p : String × String) :
    (hrefEditEntry tbl p).1 = p.1 := by
  rw [hrefEditEntry]
  by_cases h : (p.1 == "href") = true
  · rw [if_pos h]
  · rw [if_neg (by simpa using h)]

theorem classEditEntry_name (mappings : List ClassMapping) (p : String × String) :
    (classEditEntry mappings p).1 = p.1 := by
  rw [classEditEntry]
  by_cases h : (p.1 == "class") = true
  · rw [if_pos h]
  · rw [if_neg (by simpa using h)]

theorem isStylesheetLink_hrefEdit (tbl : List (String × String)) (tag : String)
    (attrs : List (String × String)) :
    isStylesheetLink tag (attrs.map (hrefEditEntry tbl)) = isStylesheetLink tag attrs := by
  rw [isStylesheetLink, isStylesheetLink,
    findAttr_map_eq (hrefEditEntry_name tbl)
      (fun p hp => by rw [hrefEditEntry, if_neg (by simp [hp])]) attrs]

theorem isStylesheetLink_classEdit (mappings : List ClassMapping) (tag : String)
    (attrs : List (String × String)) :
    isStylesheetLink tag (attrs.map (classEditEntry mappings)) = isStylesheetLink tag attrs := by
  rw [isStylesheetLink, isStylesheetLink,
    findAttr_map_eq (classEditEntry_name mappings)
      (fun p hp => by rw [classEditEntry, if_neg (by simp [hp])]) attrs]

theorem stripEntry_hrefEdit (tbl : List (String × String)) (p : String × String) :
    stripEntry true (hrefEditEntry tbl p) = stripEntry true p := by
  by_cases h : (p.1 == "href") = true
  · have hp : p.1 = "href" := by simpa using h
    rw [hrefEditEntry, if_pos h, stripEntry, stripEntry]
    rw [hp]
    rfl
  · rw [hrefEditEntry, if_neg (by simpa using h)]

theorem stripEntry_classEdit (b : Bool) (mappings : List ClassMapping) (p : String × String) :
    stripEntry b (classEditEntry mappings p) = stripEntry b p := by
  by_cases h : (p.1 == "class") = true
  · have hp : p.1 = "class" := by simpa using h
    rw [classEditEntry, if_pos h, stripEntry, stripEntry]
    rw [hp]
    rfl
  · rw [classEditEntry, if_neg (by simpa using h)]

mutual
theorem linksPass_frame (tbl : List (String × String)) :
    ∀ (st : Bool) (n : Node), stripMutable st (linksPass tbl n) = stripMutable st n
  | _, .text _ => rfl
  | st, .elem tag attrs cs => by
    rw [linksPass]
    by_cases hl : isStylesheetLink tag attrs = true
    · rw [if_pos hl, stripMutable, stripMutable, isStylesheetLink_hrefEdit, List.map_map]
      congr 1
      · apply List.map_congr_left
        intro p _
        rw [hl]
        exact stripEntry_hrefEdit tbl p
      · exact linksPassList_frame tbl _ cs
    · rw [if_neg hl, stripMutable, stripMutable]
      congr 1
      exact linksPassList_frame tbl _ cs
theorem linksPassList_frame (tbl : List (String × String)) :
    ∀ (st : Bool) (ns : NodeList),
      stripMutableList st (linksPassList tbl ns) = stripMutableList st ns
  | _, .nil => rfl
  | st, .cons n ns => by
    rw [linksPassList, stripMutableList, stripMutableList,
      linksPass_frame tbl st n, linksPassList_frame tbl st ns]
end

mutual
theorem stylesPass_frame (mappings : List ClassMapping) :
    ∀ (st : Bool) (n : Node), stripMutable st (stylesPass mappings n) = stripMutable st n
  | _, .text _ => rfl
  | st, .elem tag attrs cs => by
    rw [stylesPass, stripMutable, stripMutable]
    congr 1
    split
    case isTrue ht =>
      rw [ht]
      have ihl := stylesPassList_frame mappings true cs
      cases hsp : stylesPassList mappings cs with
      | nil =>
        rw [hsp] at ihl
        exact ihl
      | cons n ns =>
        rw [hsp] at ihl
        cases n with
        | text t =>
          cases ns with
          | nil => exact ihl
          | cons m ms => exact ihl
        | elem t2 a2 c2 => exact ihl
    case isFalse ht =>
      exact stylesPassList_frame mappings _ cs
theorem stylesPassList_frame (mappings : List ClassMapping) :
    ∀ (st : Bool) (ns : NodeList),
      stripMutableList st (stylesPassList mappings ns) = stripMutableList st ns
  | _, .nil => rfl
  | st, .cons n ns => by
    rw [stylesPassList, stripMutableList, stripMutableList,
      stylesPass_frame mappings st n, stylesPassList_frame mappings st ns]
end

mutual
theorem classPass_frame (mappings : List ClassMapping) :
    ∀ (st : Bool) (n : Node), stripMutable st (classPass mappings n) = stripMutable st n
  | _, .text _ => rfl
  | st, .elem tag attrs cs => by
    rw [classPass, stripMutable, stripMutable, isStylesheetLink_classEdit, List.map_map]
    congr 1
    · apply List.map_congr_left
      intro p _
      exact stripEntry_classEdit _ mappings p
    · exact classPassList_frame mappings _ cs
theorem classPassList_frame (mappings : List ClassMapping) :
    ∀ (st : Bool) (ns : NodeList),
      stripMutableList st (classPassList mappings ns) = stripMutableList st ns
  | _, .nil => rfl
  | st, .cons n ns => by
    rw [classPassList, stripMutableList, stripMutableList,
      classPass_frame mappings st n, classPassList_frame mappings st ns]
end

mutual
theorem countElems_linksPass (tbl : List (String × String)) :
    ∀ n : Node, countElems (linksPass tbl n) = countElems n
  | .text _ => rfl
  | .elem tag attrs cs => by
    show 1 + countElemsList (linksPassList tbl cs) = 1 + countElemsList cs
    rw [countElemsList_linksPass tbl cs]
theorem countElemsList_linksPass (tbl : List (String × String)) :
    ∀ ns : NodeList, countElemsList (linksPassList tbl ns) = countElemsList ns
  | .nil => rfl
  | .cons n ns => by
    show countElems (linksPass tbl n) + countElemsList (linksPassList tbl ns)
        = countElems n + countElemsList ns
    rw [countElems_linksPass tbl n, countElemsList_linksPass tbl ns]
end

mutual
theorem countElems_stylesPass (mappings : List ClassMapping) :
    ∀ n : Node, countElems (stylesPass mappings n) = countElems n
  | .text _ => rfl
  | .elem tag attrs cs => by
    rw [stylesPass]
    have ihl := countElemsList_stylesPass mappings cs
    split
    case isTrue ht =>
      cases hsp : stylesPassList mappings cs with
      | nil =>
        rw [hsp] at ihl
        show 1 + countElemsList NodeList.nil = 1 + countElemsList cs
        rw [ihl]
      | cons n ns =>
        rw [hsp] at ihl
        cases n with
        | text t =>
          cases ns with
          | nil =>
            show 1 + countElemsList (.cons (.text (process_css_content t mappings)) .nil)
                = 1 + countElemsList cs
            rw [← ihl]
            rfl
          | cons m ms =>
            show 1 + countElemsList (.cons (.text t) (.cons m ms)) = 1 + countElemsList cs
            rw [ihl]
        | elem t2 a2 c2 =>
          show 1 + countElemsList (.cons (.elem t2 a2 c2) ns) = 1 + countElemsList cs
          rw [ihl]
    case isFalse ht =>
      show 1 + countElemsList (stylesPassList mappings cs) = 1 + countElemsList cs
      rw [ihl]
theorem countElemsList_stylesPass (mappings : List ClassMapping) :
    ∀ ns : NodeList, countElemsList (stylesPassList mappings ns) = countElemsList ns
  | .nil => rfl
  | .cons n ns => by
    show countElems (stylesPass mappings n) + countElemsList (stylesPassList mappings ns)
        = countElems n + countElemsList ns
    rw [countElems_stylesPass mappings n, countElemsList_stylesPass mappings ns]
end

mutual
theorem countElems_classPass (mappings : List ClassMapping) :
    ∀ n : Node, countElems (classPass mappings n) = countElems n
  | .text _ => rfl
  | .elem tag attrs cs => by
    show 1 + countElemsList (classPassList mappings cs) = 1 + countElemsList cs
    rw [countElemsList_classPass mappings cs]
theorem countElemsList_classPass (mappings : List ClassMapping) :
    ∀ ns : NodeList, countElemsList (classPassList mappings ns) = countElemsList ns
  | .nil => rfl
  | .cons n ns => by
    show countElems (classPass mappings n) + countElemsList (classPassList mappings ns)
        = countElems n + countElemsList ns
    rw [countElems_classPass mappings n, countElemsList_classPass mappings ns]
end

/-- C4: the HTML rewrite preserves the document frame: the rewritten document
has the same element count, and after erasing exactly the mutable fields
(class attribute values, stylesheet-link href values, style text) the two
documents are equal — so no element is added, removed or reordered, attribute
names and their order are untouched, and every attribute other than `class`
and stylesheet-link `href` keeps its value. -/
theorem process_html_frame (doc : Node) (mappings : List ClassMapping)
    (css_files : List String) (sfx : String) :
    stripMutable false (process_html_content doc mappings css_files sfx)
      = stripMutable false doc ∧
    countElems (process_html_content doc mappings css_files sfx) = countElems doc := by
  constructor
  · rw [process_html_content, classPass_frame, stylesPass_frame, linksPass_frame]
  · rw [process_html_content, countElems_classPass, countElems_stylesPass,
      countElems_linksPass]

/-! ### C5: class attribute token rewriting -/

/-- C5: for an element carrying a `class` attribute the rewrite replaces the
attribute value by the per-token lookup image of its whitespace-split token
list, joined by single spaces: each token with a mapping is replaced by its
obfuscated name, tokens without a mapping pass through unchanged, the number
and order of tokens is preserved, and the tokens stay whitespace-separated. -/
theorem process_html_class_tokens (mappings : List ClassMapping)
    (css_files : List String) (sfx : String) (v : String) :
    process_html_content (.elem "div" [("class", v)] .nil) mappings css_files sfx
      = .elem "div" [("class", processClassValue mappings v)] .nil ∧
    ((splitWS v).map (classLookup mappings)).length = (splitWS v).length ∧
    (splitWS v ≠ [] →
      processClassValue mappings v
        = String.intercalate " " ((splitWS v).map (classLookup mappings))) ∧
    (∀ t : String, (∀ m ∈ mappings, m.original ≠ t) → classLookup mappings t = t) := by
  refine ⟨?_, List.length_map _ _, ?_, ?_⟩
  · rw [process_html_content, linksPass]
    rw [if_neg (by simp [isStylesheetLink] : ¬isStylesheetLink "div" [("class", v)] = true)]
    rw [linksPassList, stylesPass]
    rw [if_neg (by decide : ¬(("div" : String) == "style") = true)]
    rw [stylesPassList, classPass, classPassList, List.map_cons, List.map_nil,
      classEditEntry]
    rw [if_pos (by decide : (("class" : String) == "class") = true)]
  · intro hne
    rw [processClassValue]
    rw [if_neg (by simpa using hne)]
  · intro t ht
    rw [classLookup]
    have hnone : (mappings.reverse.find? fun m => m.original == t) = none := by
      rw [List.find?_eq_none]
      intro m hm
      simpa using ht m (List.mem_reverse.mp hm)
    rw [hnone]

theorem process_html_class_tokens_witness :
    (process_html_content (.elem "div" [("class", "btn x")] .nil)
        [⟨"btn", "ewq"⟩] [] "_obfuscated"
      = .elem "div" [("class", "ewq x")] .nil) ∧
    processClassValue [⟨"btn", "ewq"⟩] "btn x"
      = String.intercalate " " ((splitWS "btn x").map (classLookup [⟨"btn", "ewq"⟩])) ∧
    classLookup [⟨"btn", "ewq"⟩] "zed" = "zed" := by
  have h := process_html_class_tokens [⟨"btn", "ewq"⟩] [] "_obfuscated" "btn x"
  refine ⟨?_, h.2.2.1 (by decide), h.2.2.2 "zed" (by decide)⟩
  rw [h.1]
  decide

/-! ### Class extraction (src/obfuscator.py, lines 92-128) -/

/-- Modelled from the spec: the CSS extractor delegates tokenization to the
external tinycss2 library, collecting each identifier token immediately
preceded by a literal `.` in a rule prelude; it is modelled as collecting
every maximal identifier run immediately following a literal dot. -/
def cssIdentChar (c : Char) : Bool := c.isAlphanum || c = '_' || c = '-'

def takeIdent : List Char → List Char
  | [] => []
  | c :: cs => if cssIdentChar c then c :: takeIdent cs else []

def extractCssF : Nat → List Char → List String
  | 0, _ => []
  | _, [] => []
  | fuel+1, c :: cs =>
    if c = '.' then
      match takeIdent cs with
      | [] => extractCssF fuel cs
      | tok => String.mk tok :: extractCssF fuel (cs.drop tok.length)
    else extractCssF fuel cs

def extract_classes_from_css (s : String) : List String := extractCssF s.data.length s.data

mutual
/-- Embedding of `extract_classes_from_html` on the parsed tree: every token
of every `class` attribute, plus the CSS extraction applied to the text of
every `style` element (lines 111-128). -/
def htmlClasses : Node → List String
  | .text _ => []
  | .elem tag attrs cs =>
    (match findAttr attrs "class" with
     | some v => splitWS v
     | none => []) ++
    (if tag == "style" then
      match cs with
      | .cons (.text t) .nil => extract_classes_from_css t
      | _ => []
    else []) ++ htmlClassesList cs
def htmlClassesList : NodeList → List String
  | .nil => []
  | .cons n ns => htmlClasses n ++ htmlClassesList ns
end

def extract_classes_from_html (doc : Node) : List String := htmlClasses doc

/-! ### Orchestrator (src/obfuscator.py, lines 232-381).  The file system is
explicit; reads always succeed, so the only errors the model can record are
the ones raised by the orchestrator logic itself. -/

inductive FileContent where
  | css (text : String)
  | html (doc : Node)
deriving DecidableEq

structure FileSys where
  root : String
  validDir : Bool
  files : List (String × FileContent)

def strEndsWith (s suf : String) : Bool := List.isSuffixOf suf.data s.data

def insertStr (x : String) : List String → List String
  | [] => [x]
  | y :: ys => if strLt x y then x :: y :: ys else y :: insertStr x ys

def sortStrs (l : List String) : List String := l.foldr insertStr []

/-- Embedding of `scan_project_files` (lines 68-90): raise `ValueError` on a
missing directory, otherwise the sorted list of files matching one of the
extensions. -/
def scan_project_files (fs : FileSys) (exts : List String) : Except String (List String) :=
  if fs.validDir = false then
    .error ("\x27" ++ fs.root ++ "\x27 is not a valid directory")
  else
    .ok (sortStrs (exts.flatMap fun ext =>
      (fs.files.map (·.1)).filter fun p => strEndsWith p ext))

/-- The scanned file list when the directory is valid. -/
def scannedFiles (fs : FileSys) (exts : List String) : List String :=
  match scan_project_files fs exts with
  | .ok l => l
  | .error _ => []

/-- Embedding of `generate_obfuscated_filename` (lines 378-381). -/
def dirPrefixOf (p : String) : String :=
  String.mk (p.data.take (p.data.length - (baseName p).data.length))

def generate_obfuscated_filename (file_path : String) (sfx : String) : String :=
  dirPrefixOf file_path ++ obfBaseName sfx (baseName file_path)

structure ObfRun where
  processed_css_files : List (String × String)
  processed_html_files : List (String × String)
  total_classes : Nat
  class_mappings : List ClassMapping
  errors : List String
  backups_created : List String
  writes : List (String × FileContent)
deriving DecidableEq

def emptyRun : ObfRun := ⟨[], [], 0, [], [], [], []⟩

def readFile (fs : FileSys) (p : String) : FileContent :=
  match fs.files.find? fun q => q.1 == p with
  | some q => q.2
  | none => .css ""

def cssText : FileContent → String
  | .css t => t
  | .html _ => ""

def htmlDocOf : FileContent → Node
  | .css _ => .text ""
  | .html d => d

def cssFilesOf (all_files : List String) : List String :=
  all_files.filter fun f => strEndsWith f ".css"

def htmlFilesOf (all_files : List String) : List String :=
  all_files.filter fun f => strEndsWith f ".html"

/-- The union of classes collected from the scanned CSS and HTML files
(lines 289-303); the list stands for the Python set. -/
def classesOf (fs : FileSys) (all_files : List String) : List String :=
  ((cssFilesOf all_files).flatMap fun f =>
    extract_classes_from_css (cssText (readFile fs f))) ++
  ((htmlFilesOf all_files).flatMap fun f =>
    extract_classes_from_html (htmlDocOf (readFile fs f)))

/-- One iteration of the CSS loop (lines 319-334).  When `create_backup` is
set, the call `create_backup(css_file)` applies the boolean parameter that
shadows the module-level `create_backup` function, so it raises
`TypeError: 'bool' object is not callable`; the per-file handler records the
error and the file is neither backed up nor rewritten. -/
def cssStep (fs : FileSys) (mappings : List ClassMapping) (sfx : String) (cb : Bool)
    (st : ObfRun) (f : String) : ObfRun :=
  if cb then
    { st with errors := st.errors
        ++ ["CSS process error: " ++ f ++ " - \x27bool\x27 object is not callable"] }
  else
    let ob := process_css_content (cssText (readFile fs f)) mappings
    let out := generate_obfuscated_filename f sfx
    { st with
      writes := st.writes ++ [(out, .css ob)],
      processed_css_files := st.processed_css_files ++ [(f, out)] }

/-- One iteration of the HTML loop (lines 338-353), with the same shadowing
failure in backup mode. -/
def htmlStep (fs : FileSys) (mappings : List ClassMapping) (css_files : List String)
    (sfx : String) (cb : Bool) (st : ObfRun) (f : String) : ObfRun :=
  if cb then
    { st with errors := st.errors
        ++ ["HTML process error: " ++ f ++ " - \x27bool\x27 object is not callable"] }
  else
    let ob := process_html_content (htmlDocOf (readFile fs f)) mappings css_files sfx
    let out := generate_obfuscated_filename f sfx
    { st with
      writes := st.writes ++ [(out, .html ob)],
      processed_html_files := st.processed_html_files ++ [(f, out)] }

/-- Embedding of `obfuscate_website` (lines 242-376).  The outer
`try/except` catches every raised error, appends `str(e)` to the statistics
and returns the statistics record. -/
def obfuscate_website (fs : FileSys) (output_suffix : String) (exts : List String)
    (method : String) (exclude_classes : List String) (create_backup : Bool) : ObfRun :=
  match scan_project_files fs exts with
  | .error e => { emptyRun with errors := [e] }
  | .ok all_files =>
    let css_files := cssFilesOf all_files
    let html_files := htmlFilesOf all_files
    let all_classes := classesOf fs all_files
    if sortedDedup all_classes = [] then emptyRun
    else
      match build_class_mapping all_classes method exclude_classes with
      | .error e => { emptyRun with errors := [e] }
      | .ok mappings =>
        let st1 := { emptyRun with
          total_classes := mappings.length, class_mappings := mappings }
        let st2 := css_files.foldl (cssStep fs mappings output_suffix create_backup) st1
        html_files.foldl (htmlStep fs mappings css_files output_suffix create_backup) st2

/-! ### Claims C6 and C7 -/

/-- The file system used for the concrete orchestrator evaluations: a valid
project directory with a single CSS file. -/
def fsDemo : FileSys :=
  ⟨"site", true, [("style.css", FileContent.css ".box\x7bcolor:red\x7d")]⟩

/-- C6 (evaluation at the failing input): invoking the orchestrator with
`create_backup = True` on a project with one CSS file records a per-file
`TypeError` for that file — the boolean parameter `create_backup` shadows the
module-level `create_backup` function — so no backup is recorded, no output
file is written, and the file is not processed. -/
theorem backup_shadowing_failure :
    obfuscate_website fsDemo "_obfuscated" [".html", ".css"] "shift" [] true
      = { emptyRun with
          total_classes := 1,
          class_mappings := [⟨"box", "era"⟩],
          errors := ["CSS process error: style.css - \x27bool\x27 object is not callable"] } ∧
    obfuscate_website fsDemo "_obfuscated" [".html", ".css"] "shift" [] false
      = { emptyRun with
          total_classes := 1,
          class_mappings := [⟨"box", "era"⟩],
          processed_css_files := [("style.css", "style_obfuscated.css")],
          writes := [("style_obfuscated.css", .css ".era\x7bcolor:red\x7d")] } := by
  constructor
  · decide
  · decide

/-- C7 (counterexample): with an unknown obfuscation method the `ValueError`
does not surface to the caller — `obfuscate_website` returns normally and the
error text is swallowed into the `errors` list of the returned statistics
record. -/
theorem claimC7_counter :
    (obfuscate_website fsDemo "_obfuscated" [".html", ".css"] "rot13" [] false).errors
      = ["Unknown obfuscation method: \x27rot13\x27"] := by
  decide

theorem scan_project_files_ok {fs : FileSys} (exts : List String)
    (hv : fs.validDir = true) :
    scan_project_files fs exts = .ok (scannedFiles fs exts) := by
  simp [scan_project_files, scannedFiles, hv]

theorem obfuscate_identifier_invalid {c method : String} (hc : c ≠ "")
    (h1 : method ≠ "shift") (h2 : method ≠ "hash") (h3 : method ≠ "hex") :
    obfuscate_identifier c method
      = .error ("Unknown obfuscation method: \x27" ++ method ++ "\x27") := by
  rw [obfuscate_identifier, if_neg hc, if_neg h1, if_neg h2, if_neg h3]

theorem mem_insertSorted_self (x : String) :
    ∀ l : List String, x ∈ insertSorted x l := by
  intro l
  induction l with
  | nil => simp [insertSorted]
  | cons y ys ih =>
    rw [insertSorted]
    by_cases h1 : strLt x y = true
    · rw [if_pos h1]
      exact List.mem_cons_self _ _
    · rw [if_neg h1]
      by_cases h2 : x = y
      · rw [if_pos h2]
        exact h2 ▸ List.mem_cons_self _ _
      · rw [if_neg h2]
        exact List.mem_cons_of_mem _ ih

theorem mem_insertSorted_of_mem (x a : String) :
    ∀ l : List String, a ∈ l → a ∈ insertSorted x l := by
  intro l
  induction l with
  | nil => intro h; cases h
  | cons y ys ih =>
    intro h
    rw [insertSorted]
    by_cases h1 : strLt x y = true
    · rw [if_pos h1]
      exact List.mem_cons_of_mem _ h
    · rw [if_neg h1]
      by_cases h2 : x = y
      · rw [if_pos h2]
        exact h
      · rw [if_neg h2]
        rcases List.mem_cons.mp h with h | h
        · exact h ▸ List.mem_cons_self _ _
        · exact List.mem_cons_of_mem _ (ih h)

theorem mem_sortedDedup {a : String} :
    ∀ {l : List String}, a ∈ l → a ∈ sortedDedup l := by
  intro l
  induction l with
  | nil => intro h; cases h
  | cons x xs ih =>
    intro h
    rcases List.mem_cons.mp h with h | h
    · exact h ▸ mem_insertSorted_self x (sortedDedup xs)
    · exact mem_insertSorted_of_mem x a _ (ih h)

theorem buildAux_invalid_method {method : String} (exclude : List String)
    (h1 : method ≠ "shift") (h2 : method ≠ "hash") (h3 : method ≠ "hex") :
    ∀ cs used, (∃ c ∈ cs, ¬(c = "" ∨ c ∈ exclude)) →
      buildAux method exclude cs used
        = .error ("Unknown obfuscation method: \x27" ++ method ++ "\x27") := by
  intro cs
  induction cs with
  | nil =>
    rintro used ⟨c, hc, _⟩
    cases hc
  | cons c cs ih =>
    rintro used ⟨d, hd, hskip⟩
    rw [buildAux]
    by_cases hc : c = "" ∨ c ∈ exclude
    · rw [if_pos hc]
      apply ih
      rcases List.mem_cons.mp hd with h | h
      · exact absurd (h ▸ hc) hskip
      · exact ⟨d, h, hskip⟩
    · rw [if_neg hc]
      have hcne : c ≠ "" := fun he => hc (Or.inl he)
      rw [obfuscate_identifier_invalid hcne h1 h2 h3]

theorem build_class_mapping_invalid {method : String} (all_classes exclude : List String)
    (h1 : method ≠ "shift") (h2 : method ≠ "hash") (h3 : method ≠ "hex")
    (hex : ∃ c ∈ all_classes, ¬(c = "" ∨ c ∈ exclude)) :
    build_class_mapping all_classes method exclude
      = .error ("Unknown obfuscation method: \x27" ++ method ++ "\x27") := by
  obtain ⟨c, hc, hskip⟩ := hex
  rw [build_class_mapping,
    buildAux_invalid_method exclude h1 h2 h3 _ [] ⟨c, mem_sortedDedup hc, hskip⟩]
  rfl

/-- C7 (amended): fatal configuration errors abort the run before any output
is written, but they are caught by the orchestrator's outer `try/except` and
recorded in the `errors` list of the returned statistics instead of surfacing
to the caller.  An invalid root directory is detected before any scanning; an
unknown method is only detected while building the mapping — after the files
have been scanned — and only when at least one usable class was found. -/
theorem obfuscate_website_config_errors (fs : FileSys) (sfx : String)
    (exts : List String) (method : String) (excl : List String) (cb : Bool) :
    (fs.validDir = false →
      obfuscate_website fs sfx exts method excl cb
        = { emptyRun with
            errors := ["\x27" ++ fs.root ++ "\x27 is not a valid directory"] }) ∧
    (fs.validDir = true → method ≠ "shift" → method ≠ "hash" → method ≠ "hex" →
      (∃ c ∈ classesOf fs (scannedFiles fs exts), ¬(c = "" ∨ c ∈ excl)) →
      obfuscate_website fs sfx exts method excl cb
        = { emptyRun with
            errors := ["Unknown obfuscation method: \x27" ++ method ++ "\x27"] }) := by
  constructor
  · intro hv
    rw [obfuscate_website, scan_project_files, if_pos hv]
  · intro hv h1 h2 h3 hex
    rw [obfuscate_website, scan_project_files_ok exts hv]
    have hne : ¬sortedDedup (classesOf fs (scannedFiles fs exts)) = [] := by
      obtain ⟨c, hc, _⟩ := hex
      intro hemp
      exact absurd (hemp ▸ mem_sortedDedup hc) (List.not_mem_nil c)
    dsimp only
    rw [if_neg hne, build_class_mapping_invalid _ excl h1 h2 h3 hex]

theorem obfuscate_website_config_errors_witness :
    (obfuscate_website ⟨"missing", false, []⟩ "_obfuscated" [".html", ".css"] "shift" [] false
      = { emptyRun with errors := ["\x27missing\x27 is not a valid directory"] }) ∧
    (obfuscate_website fsDemo "_obfuscated" [".html", ".css"] "b64" [] false
      = { emptyRun with errors := ["Unknown obfuscation method: \x27b64\x27"] }) := by
  constructor
  · exact (obfuscate_website_config_errors ⟨"missing", false, []⟩ "_obfuscated"
      [".html", ".css"] "shift" [] false).1 rfl
  · exact (obfuscate_website_config_errors fsDemo "_obfuscated"
      [".html", ".css"] "b64" [] false).2 rfl (by decide) (by decide) (by decide) (by decide)
